import Mathlib

/-!
Verification of the autocrop analysis core (package autocrop and its util
package) against its natural-language specification.

The numeric code works on float64 sequences; we embed it over ℚ, passing the
transcendental operations the code uses (math.Pi, math.Sqrt, math.Atan,
math.Sin and the %f formatter) as explicit parameters so that every
definition stays executable.  Go panics (out-of-range slice indexing) are
modelled by returning none from an Option-valued function; functions that
cannot panic return plain values.
-/

namespace Autocrop

/-- One step of the exponential-smoothing loop of util.Lowpass: given the
coefficient α and the previous output value, produce the outputs for the
remaining inputs (the loop body y[t] = y[t-1] + α·(x[t] − y[t-1])). -/
def lowpassGo (α : ℚ) : ℚ → List ℚ → List ℚ
  | _, [] => []
  | prev, v :: vs =>
    let y := prev + α * (v - prev)
    y :: lowpassGo α y vs

/-- util.Lowpass: discrete low-pass filter with cutoff frequency fc.
RC = 1/(2·π·fc), α = 1/(RC+1), y[0] = x[0], then the smoothing loop.
The assignment y[0] = x[0] indexes out of bounds when x is empty, which the
embedding reports as none. -/
def Lowpass (pi fc : ℚ) (x : List ℚ) : Option (List ℚ) :=
  match x with
  | [] => none
  | x0 :: rest =>
    let RC := 1 / (2 * pi * fc)
    let α := 1 / (RC + 1)
    some (x0 :: lowpassGo α x0 rest)

/-- util.Differentiate: discrete derivative.  Empty input returns the empty
list (Go returns nil before touching the data); otherwise ddx[0] = xs[1]−xs[0]
(out of bounds when the input has exactly one element, reported as none),
interior points use the central difference, the last point the backward
difference, and the result is low-passed at fc = 1/10. -/
def Differentiate (pi : ℚ) (xs : List ℚ) : Option (List ℚ) :=
  match xs with
  | [] => some []
  | [_] => none
  | _ =>
    let n := xs.length
    let ddx := (List.range n).map (fun i =>
      if i = 0 then xs.getD 1 0 - xs.getD 0 0
      else if i = n - 1 then xs.getD (n - 1) 0 - xs.getD (n - 2) 0
      else (xs.getD (i + 1) 0 - xs.getD (i - 1) 0) / 2)
    Lowpass pi (1 / 10) ddx

/-- util.Mean: sum divided by length (division by zero on the empty list,
which in ℚ yields 0 where Go yields NaN; no panic either way). -/
def Mean (xs : List ℚ) : ℚ := xs.sum / (xs.length : ℚ)

/-- util.AvgAbsDev: average absolute deviation from the mean. -/
def AvgAbsDev (xs : List ℚ) : ℚ :=
  (xs.map (fun y => |y - Mean xs|)).sum / (xs.length : ℚ)

/-- util.Rad2deg: radians to degrees, rad·180/π. -/
def Rad2deg (pi rad : ℚ) : ℚ := rad * 180 / pi

/-- Accumulator of util.LinearFit's loop: running sums of x·y, x, y, x², y²
and the effective sample count n. -/
structure FitAcc where
  xy : ℚ
  sx : ℚ
  sy : ℚ
  x2 : ℚ
  y2 : ℚ
  n : ℚ

/-- One iteration of util.LinearFit's loop over (index, value) pairs: a zero
value only decrements n, any other value is accumulated into the sums. -/
def fitStep (acc : FitAcc) (p : ℕ × ℚ) : FitAcc :=
  if p.2 = 0 then
    { acc with n := acc.n - 1 }
  else
    { xy := acc.xy + (p.1 : ℚ) * p.2
      sx := acc.sx + (p.1 : ℚ)
      sy := acc.sy + p.2
      x2 := acc.x2 + (p.1 : ℚ) * (p.1 : ℚ)
      y2 := acc.y2 + p.2 * p.2
      n := acc.n }

/-- util.LinearFit: naive least squares over (index, value) pairs ignoring
zero values, returning (alpha, beta, r²).  sqrtF stands for math.Sqrt. -/
def LinearFit (sqrtF : ℚ → ℚ) (xs : List ℚ) : ℚ × ℚ × ℚ :=
  let acc := xs.enum.foldl fitStep ⟨0, 0, 0, 0, 0, (xs.length : ℚ)⟩
  let xy := acc.xy / acc.n
  let sx := acc.sx / acc.n
  let sy := acc.sy / acc.n
  let x2 := acc.x2 / acc.n
  let y2 := acc.y2 / acc.n
  let beta := (xy - sx * sy) / (x2 - sx * sx)
  let alpha := sy - beta * sx
  let r := (xy - sx * sy) / sqrtF ((x2 - sx * sx) * (y2 - sy * sy))
  (alpha, beta, r * r)

/-- The chunk-deviation loop of util.Clean.  At offset t it takes the chunk
xs[t:] when fewer than 8 elements remain (and zeroing such a chunk writes
only min(chunkSize, remaining) zeros, since copy stops at the shorter of the
two slices), otherwise the chunk xs[t:t+chunkSize] — which indexes out of
bounds when 8 ≤ len(xs)−t < chunkSize, reported as none.  A chunk whose
average absolute deviation exceeds cmd is zeroed in place.  The emptiness
check comes first, mirroring the loop condition t < len(xs): on the empty
sequence the loop body never runs, for any chunkSize.  On a nonempty
sequence, chunkSize = 0 makes the Go loop spin forever (t never advances),
reported as none. -/
def chunkPassF (cmd : ℚ) (c : ℕ) : ℕ → List ℚ → Option (List ℚ)
  | 0, _ => none
  | fuel + 1, s =>
    if s = [] then some []
    else if c = 0 then none
    else if s.length < 8 then
      let k := min c s.length
      let s' := if cmd < AvgAbsDev s then List.replicate k 0 ++ s.drop k else s
      match chunkPassF cmd c fuel (s'.drop c) with
      | none => none
      | some rest => some (s'.take c ++ rest)
    else if s.length < c then none
    else
      let chunk := s.take c
      let chunk' := if cmd < AvgAbsDev chunk then List.replicate c 0 else chunk
      match chunkPassF cmd c fuel (s.drop c) with
      | none => none
      | some rest => some (chunk' ++ rest)

/-- The chunk-deviation loop of util.Clean, entered on the whole sequence.
Every iteration advances the offset by chunkSize ≥ 1, so length + 1 rounds of
the structural worker always cover the loop; for chunkSize = 0 on a nonempty
sequence the Go loop never terminates, which the worker reports as none at
its first round. -/
def chunkPass (cmd : ℚ) (c : ℕ) (s : List ℚ) : Option (List ℚ) :=
  chunkPassF cmd c (s.length + 1) s

/-- util.Clean: the chunk-deviation pass, then the regression-residual pass
(zero every value whose residual against the first fit exceeds
regressionDev), then the fill pass (refit and replace every zero with the
fitted value at its index).  The cutoff parameter is accepted but never used,
exactly as in the source. -/
def Clean (sqrtF : ℚ → ℚ) (cutoff regressionDev chunkMeanDev : ℚ) (chunkSize : ℕ)
    (xs : List ℚ) : Option (List ℚ) :=
  match chunkPass chunkMeanDev chunkSize xs with
  | none => none
  | some ys =>
    let f1 := LinearFit sqrtF ys
    let a := f1.1
    let b := f1.2.1
    let ys2 := ys.enum.map (fun p =>
      if regressionDev < |a + b * (p.1 : ℚ) - p.2| then 0 else p.2)
    let f2 := LinearFit sqrtF ys2
    let a2 := f2.1
    let b2 := f2.2.1
    some (ys2.enum.map (fun p => if p.2 = 0 then a2 + b2 * (p.1 : ℚ) else p.2))

/-- First index of a list element satisfying p (the break-on-first-hit scan
pattern used by util.Trim and the search loop of the analysis). -/
def findIdxQ (p : ℚ → Bool) : List ℚ → Option ℕ
  | [] => none
  | x :: l => if p x then some 0 else (findIdxQ p l).map (· + 1)

/-- util.Trim: lo is the first index whose value is strictly between 0 and
thresh (default 0), hi is one past the last such index (default len). -/
def Trim (xs : List ℚ) (thresh : ℚ) : ℕ × ℕ :=
  let p : ℚ → Bool := fun y => decide (y < thresh ∧ 0 < y)
  let lo := (findIdxQ p xs).getD 0
  let hi :=
    match findIdxQ p xs.reverse with
    | none => xs.length
    | some k => xs.length - k
  (lo, hi)

/-- Go's float64-to-int conversion: truncation toward zero. -/
def truncQ (q : ℚ) : ℤ := if 0 ≤ q then Int.floor q else -Int.floor (-q)

/-- image.Rectangle as used by the Transform: Min and Max corners. -/
structure Rect where
  minX : ℤ
  minY : ℤ
  maxX : ℤ
  maxY : ℤ

/-- Rectangle.Dx: width. -/
def Rect.dx (r : Rect) : ℤ := r.maxX - r.minX

/-- Rectangle.Dy: height. -/
def Rect.dy (r : Rect) : ℤ := r.maxY - r.minY

/-- The Transform plan: rotation angle (radians), crop bounds, and the four
per-side r² confidence values in top/right/bottom/left order. -/
structure Transform where
  angle : ℚ
  bounds : Rect
  confidence : ℚ × ℚ × ℚ × ℚ

/-- Transform.String: renders the ImageMagick flags.  r = sin(−angle)/2,
left = Min.X + int(Dy·r), top = Min.Y + int(Dx·r), and the format string
"-rotate %f -crop %dx%d+%d+%d" applied to (Rad2deg angle, Dx, Dy, left, top).
sinF stands for math.Sin and fmtF for the %f formatting of a float64. -/
def Transform.string (pi : ℚ) (sinF : ℚ → ℚ) (fmtF : ℚ → String) (t : Transform) : String :=
  let r := sinF (-t.angle) / 2
  let left := t.bounds.minX + truncQ ((t.bounds.dy : ℚ) * r)
  let top := t.bounds.minY + truncQ ((t.bounds.dx : ℚ) * r)
  "-rotate " ++ fmtF (Rad2deg pi t.angle) ++ " -crop " ++ toString t.bounds.dx ++ "x"
    ++ toString t.bounds.dy ++ "+" ++ toString left ++ "+" ++ toString top

/-- The inner loop of the analysis search: starting with running maximum mx
first seen at index maxI, scan the remaining derivative values (the current
absolute index is i); stop at the first value ≤ thresh and return the index
of the running maximum, updating it on every strictly larger value. -/
def peakLoop (thresh : ℚ) : List ℚ → ℕ → ℚ → ℕ → ℕ
  | [], _, _, maxI => maxI
  | x :: rest, i, mx, maxI =>
    if x ≤ thresh then maxI
    else if mx < x then peakLoop thresh rest (i + 1) x i
    else peakLoop thresh rest (i + 1) mx maxI

/-- The outer loop of the analysis search: scan for the first derivative
value strictly above thresh; from there run peakLoop (the Go inner loop
re-reads the crossing element itself, which neither stops the loop nor moves
the maximum, so it enters peakLoop with mx = x, maxI = i on the tail). -/
def findPeakIdx (thresh : ℚ) : List ℚ → ℕ → Option ℕ
  | [], _ => none
  | x :: rest, i =>
    if thresh < x then some (peakLoop thresh rest (i + 1) x i)
    else findPeakIdx thresh rest (i + 1)

/-- analysis.search: low-pass the samples at the per-analysis cutoff fc,
differentiate, then find the peak of the first sustained excursion above
thresh; edge stays 0.0 when no value ever exceeds thresh. -/
def search (pi fc thresh : ℚ) (samples : List ℚ) : Option ℚ :=
  match Lowpass pi fc samples with
  | none => none
  | some ys =>
    match Differentiate pi ys with
    | none => none
    | some d => some (((findPeakIdx thresh d 0).getD 0 : ℕ) : ℚ)

/-- analyzeResult with the Trim result and the coarse threshold q made
explicit parameters (the source computes lohi := Trim(edges, q) with
q := 200 and then never uses lo, hi except to slice the plot window):
low-pass the edges at 0.1, Clean with (q, 24, 4, 8), fit, crop from the
midpoint-evaluated fit, slice edges[lo:hi] (out of bounds unless
lo ≤ hi ≤ len, reported as none), and the angle atan(b·dir·n/d). -/
def analyzeResultWith (atanF sqrtF : ℚ → ℚ) (pi : ℚ) (lohi : ℕ × ℕ) (q : ℚ)
    (edges : List ℚ) (dir : ℚ) (n d : ℕ) : Option (ℚ × ℚ × ℤ) :=
  match Lowpass pi (1 / 10) edges with
  | none => none
  | some e1 =>
    match Clean sqrtF q 24 4 8 e1 with
    | none => none
    | some e2 =>
      let f := LinearFit sqrtF e2
      let a := f.1
      let b := f.2.1
      let r := f.2.2
      let crop : ℤ := truncQ (a + b * (e2.length : ℚ) / 2)
      if lohi.1 ≤ lohi.2 ∧ lohi.2 ≤ e2.length then
        let _trimmed := (e2.drop lohi.1).take (lohi.2 - lohi.1)
        let angle := atanF (b * dir * (n : ℚ) / (d : ℚ))
        some (angle, r, crop)
      else none

/-- analyzeResult: interpret one side's sample set for angle, confidence and
crop size, with q = 200 and the Trim window exactly as in the source. -/
def analyzeResult (atanF sqrtF : ℚ → ℚ) (pi : ℚ) (edges : List ℚ) (dir : ℚ)
    (n d : ℕ) : Option (ℚ × ℚ × ℤ) :=
  analyzeResultWith atanF sqrtF pi (Trim edges 200) 200 edges dir n d

/-- The four image sides, in the CSS box order used by Analyze. -/
inductive Side
  | top
  | right
  | bottom
  | left

/-- The dir argument Analyze passes to analyzeResult for each side
(lines angles[0..3]): −1 for top and right, +1 for bottom and left. -/
def sideDir : Side → ℚ
  | .top => -1
  | .right => -1
  | .bottom => 1
  | .left => 1

/-- The d argument Analyze passes to analyzeResult for each side:
dx for top and bottom, dy for right and left. -/
def sideDim (dx dy : ℕ) : Side → ℕ
  | .top => dx
  | .right => dy
  | .bottom => dx
  | .left => dy

/-! Specification-side definitions, written from the spec's words, to be
compared with the embedded code. -/

/-- Maximum of a nonempty list given head and tail (0 for the empty list,
which is never used). -/
def maxOf : List ℚ → ℚ
  | [] => 0
  | x :: t => t.foldl max x

/-- Position, within the maximal run of values strictly above thresh at the
head of l, of the running maximum of that run: the first index holding the
run's maximum value. -/
def runPeakIdx (thresh : ℚ) (l : List ℚ) : ℕ :=
  let run := l.takeWhile (fun x => decide (thresh < x))
  run.findIdx (fun z => decide (z = maxOf run))

/-- Edge position as the spec words it: the index of the running maximum of
the first maximal run of derivative values strictly above thresh, and 0 when
no value ever exceeds thresh. -/
def searchSpecPeak (thresh : ℚ) (d : List ℚ) : ℚ :=
  match findIdxQ (fun x => decide (thresh < x)) d with
  | none => 0
  | some i0 => ((i0 + runPeakIdx thresh (d.drop i0) : ℕ) : ℚ)

/-- Partition of a sequence into contiguous chunks of c elements with a
final shorter chunk holding the remainder, as the spec describes the chunked
deviation pass ([] for c = 0, where the code's loop never terminates). -/
def chunksOf (c : ℕ) (xs : List ℚ) : List (List ℚ) :=
  if hc : c = 0 then []
  else if hs : xs = [] then []
  else if xs.length ≤ c then [xs]
  else xs.take c :: chunksOf c (xs.drop c)
termination_by xs.length
decreasing_by
  have h2 : 0 < xs.length := List.length_pos.mpr hs
  simp only [List.length_drop]
  omega

/-- Per-chunk action of the chunked deviation pass as the spec words it:
zero out the whole chunk when its average absolute deviation from its own
mean exceeds cmd, otherwise keep it. -/
def zeroChunk (cmd : ℚ) (ch : List ℚ) : List ℚ :=
  if cmd < AvgAbsDev ch then List.replicate ch.length 0 else ch

/-- Nonzero entries of the enumerated sequence (index, value), the sample
pairs util.LinearFit actually accumulates. -/
def fitPairs (xs : List ℚ) : List (ℕ × ℚ) :=
  xs.enum.filter (fun p => p.2 ≠ 0)

/-- Effective sample count of util.LinearFit as the spec words it: sequence
length minus the number of skipped zeros. -/
def fitN (xs : List ℚ) : ℚ :=
  (xs.length : ℚ) - ((xs.filter (fun y => y = 0)).length : ℚ)

/-- Moment E[xy] over the nonzero samples: sum of index·value divided by n. -/
def momXY (xs : List ℚ) : ℚ := ((fitPairs xs).map (fun p => (p.1 : ℚ) * p.2)).sum / fitN xs

/-- Moment E[x] over the nonzero samples. -/
def momX (xs : List ℚ) : ℚ := ((fitPairs xs).map (fun p => (p.1 : ℚ))).sum / fitN xs

/-- Moment E[y] over the nonzero samples. -/
def momY (xs : List ℚ) : ℚ := ((fitPairs xs).map (fun p => p.2)).sum / fitN xs

/-- Moment E[x²] over the nonzero samples. -/
def momX2 (xs : List ℚ) : ℚ := ((fitPairs xs).map (fun p => (p.1 : ℚ) * (p.1 : ℚ))).sum / fitN xs

/-- Moment E[y²] over the nonzero samples. -/
def momY2 (xs : List ℚ) : ℚ := ((fitPairs xs).map (fun p => p.2 * p.2)).sum / fitN xs

/-! Helper lemmas. -/

/-- The smoothing loop preserves length. -/
theorem lowpassGo_length (α : ℚ) : ∀ (prev : ℚ) (l : List ℚ),
    (lowpassGo α prev l).length = l.length := by
  intro prev l
  induction l generalizing prev with
  | nil => rfl
  | cons v vs ih => simp [lowpassGo, ih]

/-- Lowpass succeeds on every nonempty input and preserves length. -/
theorem Lowpass_some (pi fc : ℚ) (xs : List ℚ) (h : xs ≠ []) :
    ∃ ys, Lowpass pi fc xs = some ys ∧ ys.length = xs.length := by
  match xs with
  | [] => exact absurd rfl h
  | x0 :: rest =>
    refine ⟨_, rfl, ?_⟩
    simp [lowpassGo_length]

/-- Lowpass only fails on the empty input. -/
theorem Lowpass_length (pi fc : ℚ) (xs ys : List ℚ) (h : Lowpass pi fc xs = some ys) :
    ys.length = xs.length := by
  match xs with
  | [] => simp [Lowpass] at h
  | x0 :: rest =>
    simp only [Lowpass, Option.some.injEq] at h
    subst h
    simp [lowpassGo_length]

/-- Differentiate succeeds on every input of length at least 2 and preserves
length. -/
theorem Differentiate_some (pi : ℚ) (xs : List ℚ) (h : 2 ≤ xs.length) :
    ∃ ys, Differentiate pi xs = some ys ∧ ys.length = xs.length := by
  match xs with
  | [] => simp at h
  | [x] => simp at h
  | x :: y :: rest =>
    have hne : (List.range (x :: y :: rest).length).map (fun i =>
        if i = 0 then (x :: y :: rest).getD 1 0 - (x :: y :: rest).getD 0 0
        else if i = (x :: y :: rest).length - 1 then
          (x :: y :: rest).getD ((x :: y :: rest).length - 1) 0
            - (x :: y :: rest).getD ((x :: y :: rest).length - 2) 0
        else ((x :: y :: rest).getD (i + 1) 0 - (x :: y :: rest).getD (i - 1) 0) / 2) ≠ [] := by
      simp
    obtain ⟨ys, hy, hyl⟩ := Lowpass_some pi (1 / 10) _ hne
    refine ⟨ys, ?_, ?_⟩
    · simpa [Differentiate] using hy
    · simp at hyl
      simpa using hyl

/-- The in-place zeroing of a short tail chunk preserves its length. -/
theorem absorbZero_length (cmd : ℚ) (c : ℕ) (s : List ℚ) :
    (if cmd < AvgAbsDev s then List.replicate (min c s.length) 0 ++ s.drop (min c s.length)
     else s).length = s.length := by
  split
  · simp only [List.length_append, List.length_replicate, List.length_drop]
    omega
  · rfl

/-- The fuel argument of the chunk-loop worker is irrelevant as long as it
exceeds the sequence length. -/
theorem chunkPassF_congr (cmd : ℚ) (c : ℕ) : ∀ (f1 f2 : ℕ) (s : List ℚ),
    s.length < f1 → s.length < f2 →
    chunkPassF cmd c f1 s = chunkPassF cmd c f2 s := by
  intro f1
  induction f1 with
  | zero =>
    intro f2 s h1 h2
    omega
  | succ g1 ih =>
    intro f2 s h1 h2
    obtain ⟨g2, rfl⟩ : ∃ g2, f2 = g2 + 1 := ⟨f2 - 1, by omega⟩
    rw [chunkPassF]
    rw [chunkPassF]
    rcases eq_or_ne s [] with rfl | hs
    · rw [if_pos rfl, if_pos rfl]
    · rw [if_neg hs, if_neg hs]
      rcases eq_or_ne c 0 with rfl | hc0
      · rw [if_pos rfl, if_pos rfl]
      · rw [if_neg hc0, if_neg hc0]
        have hpos : 0 < s.length := List.length_pos.mpr hs
        by_cases h8 : s.length < 8
        · rw [if_pos h8, if_pos h8]
          dsimp only
          have hrec := ih g2 ((if cmd < AvgAbsDev s then
              List.replicate (min c s.length) 0 ++ s.drop (min c s.length) else s).drop c)
            (by simp only [List.length_drop, absorbZero_length]; omega)
            (by simp only [List.length_drop, absorbZero_length]; omega)
          rw [hrec]
        · rw [if_neg h8, if_neg h8]
          by_cases hlt : s.length < c
          · rw [if_pos hlt, if_pos hlt]
          · rw [if_neg hlt, if_neg hlt]
            dsimp only
            have hrec := ih g2 (s.drop c)
              (by simp only [List.length_drop]; omega)
              (by simp only [List.length_drop]; omega)
            rw [hrec]

/-- Running the chunk-loop worker with any sufficient fuel computes
chunkPass. -/
theorem chunkPassF_eq_chunkPass (cmd : ℚ) (c : ℕ) (f : ℕ) (s : List ℚ)
    (h : s.length < f) : chunkPassF cmd c f s = chunkPass cmd c s :=
  chunkPassF_congr cmd c f (s.length + 1) s h (by omega)

/-- The chunk-deviation loop succeeds exactly on the inputs where no slice
goes out of bounds; whenever the input length's remainder modulo a positive
chunk size is below 8 it returns a list of the same length. -/
theorem chunkPass_some (cmd : ℚ) (c : ℕ) (hc : 0 < c) :
    ∀ (N : ℕ) (s : List ℚ), s.length ≤ N → s.length % c < 8 →
    ∃ u, chunkPass cmd c s = some u ∧ u.length = s.length := by
  have hc0 : c ≠ 0 := Nat.pos_iff_ne_zero.mp hc
  intro N
  induction N with
  | zero =>
    intro s hsN _
    have hnil : s = [] := List.eq_nil_of_length_eq_zero (Nat.le_zero.mp hsN)
    subst hnil
    refine ⟨[], ?_, rfl⟩
    rw [chunkPass, chunkPassF, if_pos rfl]
  | succ N ih =>
    intro s hsN hmod
    rcases eq_or_ne s [] with rfl | hs
    · refine ⟨[], ?_, rfl⟩
      rw [chunkPass, chunkPassF, if_pos rfl]
    · have hpos : 0 < s.length := List.length_pos.mpr hs
      by_cases h8 : s.length < 8
      · -- absorb branch: the chunk is the whole remaining tail
        have hmod' : ((if cmd < AvgAbsDev s then
            List.replicate (min c s.length) 0 ++ s.drop (min c s.length) else s).drop c).length
              % c < 8 := by
          simp only [List.length_drop, absorbZero_length]
          have : (s.length - c) % c ≤ s.length - c := Nat.mod_le _ _
          omega
        have hlen' : ((if cmd < AvgAbsDev s then
            List.replicate (min c s.length) 0 ++ s.drop (min c s.length) else s).drop c).length
              ≤ N := by
          simp only [List.length_drop, absorbZero_length]
          omega
        obtain ⟨u, hu, hul⟩ := ih _ hlen' hmod'
        have heq : chunkPass cmd c s =
            some ((if cmd < AvgAbsDev s then
              List.replicate (min c s.length) 0 ++ s.drop (min c s.length) else s).take c ++ u) := by
          rw [chunkPass, chunkPassF, if_neg hs, if_neg hc0, if_pos h8]
          dsimp only
          rw [chunkPassF_eq_chunkPass cmd c s.length
            ((if cmd < AvgAbsDev s then
              List.replicate (min c s.length) 0 ++ s.drop (min c s.length) else s).drop c)
            (by simp only [List.length_drop, absorbZero_length]; omega)]
          rw [hu]
        refine ⟨_, heq, ?_⟩
        simp only [List.length_append, List.length_take, List.length_drop,
          absorbZero_length] at hul ⊢
        omega
      · -- full chunk branch
        have hcle : c ≤ s.length := by
          by_contra hlt
          push_neg at hlt
          rw [Nat.mod_eq_of_lt hlt] at hmod
          omega
        have hmod' : ((s.drop c).length) % c < 8 := by
          simp only [List.length_drop]
          have heq : s.length - c + c = s.length := by omega
          have := Nat.add_mod_right (s.length - c) c
          rw [heq] at this
          omega
        have hlen' : (s.drop c).length ≤ N := by
          simp only [List.length_drop]
          omega
        obtain ⟨u, hu, hul⟩ := ih _ hlen' hmod'
        have heq : chunkPass cmd c s =
            some ((if cmd < AvgAbsDev (s.take c) then List.replicate c 0 else s.take c) ++ u) := by
          rw [chunkPass, chunkPassF, if_neg hs, if_neg hc0, if_neg h8,
            if_neg (by omega : ¬s.length < c)]
          dsimp only
          rw [chunkPassF_eq_chunkPass cmd c s.length (s.drop c)
            (by simp only [List.length_drop]; omega)]
          rw [hu]
        refine ⟨_, heq, ?_⟩
        simp only [List.length_drop] at hul
        split
        · simp only [List.length_append, List.length_replicate]
          omega
        · simp only [List.length_append, List.length_take]
          omega

/-- Clean succeeds whenever its chunk pass does, and preserves length. -/
theorem Clean_some (sqrtF : ℚ → ℚ) (cutoff rd cmd : ℚ) (c : ℕ) (xs : List ℚ)
    (hc : 0 < c) (hmod : xs.length % c < 8) :
    ∃ ys, Clean sqrtF cutoff rd cmd c xs = some ys ∧ ys.length = xs.length := by
  obtain ⟨u, hu, hul⟩ := chunkPass_some cmd c hc xs.length xs le_rfl hmod
  rw [Clean, hu]
  dsimp only
  refine ⟨_, rfl, ?_⟩
  simp [hul]

/-- The base value is a lower bound of a max-fold. -/
theorem le_foldl_max : ∀ (t : List ℚ) (x : ℚ), x ≤ t.foldl max x := by
  intro t
  induction t with
  | nil => intro x; exact le_rfl
  | cons y t ih =>
    intro x
    calc x ≤ max x y := le_max_left x y
    _ ≤ (t.foldl max (max x y)) := ih (max x y)

/-- Characterization of the inner search loop: it returns the starting index
maxI when no value of the leading strictly-above-thresh run beats the running
maximum mx, and otherwise the absolute position (offset j) of the first
element of that run equal to the run's maximum. -/
theorem peakLoop_eq (thresh : ℚ) : ∀ (l : List ℚ) (j : ℕ) (mx : ℚ) (maxI : ℕ),
    peakLoop thresh l j mx maxI =
      if (l.takeWhile (fun v => decide (thresh < v))).foldl max mx ≤ mx then maxI
      else j + (l.takeWhile (fun v => decide (thresh < v))).findIdx
        (fun z => decide (z = (l.takeWhile (fun v => decide (thresh < v))).foldl max mx)) := by
  intro l
  induction l with
  | nil =>
    intro j mx maxI
    simp [peakLoop]
  | cons x t ih =>
    intro j mx maxI
    set tw := t.takeWhile (fun v => decide (thresh < v)) with htw
    by_cases hx : x ≤ thresh
    · have htwc : (x :: t).takeWhile (fun v => decide (thresh < v)) = [] := by
        simp [List.takeWhile_cons, not_lt.mpr hx]
      rw [htwc, peakLoop, if_pos hx]
      simp
    · push_neg at hx
      have htwc : (x :: t).takeWhile (fun v => decide (thresh < v)) = x :: tw := by
        simp [List.takeWhile_cons, hx]
      rw [htwc, peakLoop, if_neg (not_le.mpr hx)]
      by_cases hmx : mx < x
      · rw [if_pos hmx, ih (j + 1) x j]
        have hfold : (x :: tw).foldl max mx = tw.foldl max x := by
          rw [List.foldl_cons, max_eq_right hmx.le]
        have hxle : x ≤ tw.foldl max x := le_foldl_max tw x
        rw [hfold]
        have hcond2 : ¬ tw.foldl max x ≤ mx := fun hle =>
          absurd (hxle.trans hle) (not_le.mpr hmx)
        rw [if_neg hcond2]
        by_cases hM : tw.foldl max x ≤ x
        · have hMx : tw.foldl max x = x := le_antisymm hM hxle
          have hdec : decide (x = tw.foldl max x) = true := by simp [hMx]
          rw [if_pos hM, List.findIdx_cons, hdec]
          simp
        · have hdec : decide (x = tw.foldl max x) = false := by
            simp only [decide_eq_false_iff_not]
            intro hEq
            exact hM (le_of_eq hEq.symm)
          rw [if_neg hM, List.findIdx_cons, hdec]
          simp only [cond_false]
          omega
      · rw [if_neg hmx, ih (j + 1) mx maxI]
        have hfold : (x :: tw).foldl max mx = tw.foldl max mx := by
          rw [List.foldl_cons, max_eq_left (not_lt.mp hmx)]
        rw [hfold]
        by_cases hM : tw.foldl max mx ≤ mx
        · rw [if_pos hM, if_pos hM]
        · have hdec : decide (x = tw.foldl max mx) = false := by
            simp only [decide_eq_false_iff_not]
            intro hEq
            exact hM (hEq ▸ (not_lt.mp hmx))
          rw [if_neg hM, if_neg hM, List.findIdx_cons, hdec]
          simp only [cond_false]
          omega

/-- Characterization of the outer search loop: it maps the index of the first
value strictly above thresh to the absolute position of the peak of the run
starting there, and propagates absence. -/
theorem findPeakIdx_eq (thresh : ℚ) : ∀ (l : List ℚ) (i : ℕ),
    findPeakIdx thresh l i = (findIdxQ (fun v => decide (thresh < v)) l).map
      (fun i0 => i + i0 + runPeakIdx thresh (l.drop i0)) := by
  intro l
  induction l with
  | nil => intro i; rfl
  | cons x t ih =>
    intro i
    set tw := t.takeWhile (fun v => decide (thresh < v)) with htw
    by_cases hx : thresh < x
    · have hpx : decide (thresh < x) = true := by simp [hx]
      have htwc : (x :: t).takeWhile (fun v => decide (thresh < v)) = x :: tw := by
        simp [List.takeWhile_cons, hx]
      rw [findPeakIdx, if_pos hx, findIdxQ, if_pos hpx]
      simp only [Option.map_some', Nat.add_zero, List.drop_zero, Option.some.injEq]
      rw [peakLoop_eq]
      have hfold : (x :: tw).foldl max x = tw.foldl max x := by
        rw [List.foldl_cons, max_self]
      simp only [runPeakIdx, htwc, maxOf, hfold]
      have hxle : x ≤ tw.foldl max x := le_foldl_max tw x
      by_cases hM : tw.foldl max x ≤ x
      · have hMx : tw.foldl max x = x := le_antisymm hM hxle
        have hdec : decide (x = tw.foldl max x) = true := by simp [hMx]
        rw [if_pos hM, List.findIdx_cons, hdec]
        simp
      · have hdec : decide (x = tw.foldl max x) = false := by
          simp only [decide_eq_false_iff_not]
          intro hEq
          exact hM (le_of_eq hEq.symm)
        rw [if_neg hM, List.findIdx_cons, hdec]
        simp only [cond_false, Option.some.injEq, ← htw]
        omega
    · have hpx : decide (thresh < x) = false := by simp [hx]
      rw [findPeakIdx, if_neg hx, findIdxQ, if_neg (by simp [hpx]), ih (i + 1)]
      cases hfi : findIdxQ (fun v => decide (thresh < v)) t with
      | none => simp
      | some i0 =>
        simp only [Option.map_some', Option.some.injEq, List.drop_succ_cons]
        omega

/-- The edge value the search loop yields coincides with the spec-side
first-sustained-excursion peak. -/
theorem searchVal_eq_spec (thresh : ℚ) (d : List ℚ) :
    (((findPeakIdx thresh d 0).getD 0 : ℕ) : ℚ) = searchSpecPeak thresh d := by
  rw [findPeakIdx_eq]
  cases h : findIdxQ (fun v => decide (thresh < v)) d with
  | none => simp [searchSpecPeak, h]
  | some i0 => simp [searchSpecPeak, h]

/-- The inner search loop never moves past the end of the scanned values. -/
theorem peakLoop_lt (thresh : ℚ) : ∀ (l : List ℚ) (j maxI : ℕ) (mx : ℚ), maxI < j →
    peakLoop thresh l j mx maxI < j + l.length := by
  intro l
  induction l with
  | nil =>
    intro j maxI mx h
    simpa [peakLoop] using h
  | cons x t ih =>
    intro j maxI mx h
    rw [peakLoop]
    split
    · simp only [List.length_cons]
      omega
    · split
      · have := ih (j + 1) j x (by omega)
        simp only [List.length_cons]
        omega
      · have := ih (j + 1) maxI mx (by omega)
        simp only [List.length_cons]
        omega

/-- A found peak index lies within the scanned values. -/
theorem findPeakIdx_lt (thresh : ℚ) : ∀ (l : List ℚ) (i m : ℕ),
    findPeakIdx thresh l i = some m → m < i + l.length := by
  intro l
  induction l with
  | nil => intro i m h; simp [findPeakIdx] at h
  | cons x t ih =>
    intro i m h
    rw [findPeakIdx] at h
    split at h
    · have hm : m = peakLoop thresh t (i + 1) x i := (Option.some.injEq _ _).mp h.symm
      have := peakLoop_lt thresh t (i + 1) i x (by omega)
      simp only [List.length_cons]
      omega
    · have := ih (i + 1) m h
      simp only [List.length_cons]
      omega

/-- The LinearFit loop computes, on top of any starting accumulator, the sums
of x·y, x, y, x², y² over the nonzero samples and subtracts the number of
zero samples from the count. -/
theorem fit_foldl : ∀ (xs : List ℚ) (k : ℕ) (acc : FitAcc),
    (List.enumFrom k xs).foldl fitStep acc =
      { xy := acc.xy + (((List.enumFrom k xs).filter (fun p => p.2 ≠ 0)).map
          (fun p => (p.1 : ℚ) * p.2)).sum
        sx := acc.sx + (((List.enumFrom k xs).filter (fun p => p.2 ≠ 0)).map
          (fun p => (p.1 : ℚ))).sum
        sy := acc.sy + (((List.enumFrom k xs).filter (fun p => p.2 ≠ 0)).map
          (fun p => p.2)).sum
        x2 := acc.x2 + (((List.enumFrom k xs).filter (fun p => p.2 ≠ 0)).map
          (fun p => (p.1 : ℚ) * (p.1 : ℚ))).sum
        y2 := acc.y2 + (((List.enumFrom k xs).filter (fun p => p.2 ≠ 0)).map
          (fun p => p.2 * p.2)).sum
        n := acc.n - ((xs.filter (fun y => y = 0)).length : ℚ) } := by
  intro xs
  induction xs with
  | nil =>
    intro k acc
    obtain ⟨axy, asx, asy, ax2, ay2, an⟩ := acc
    simp [List.enumFrom]
  | cons y t ih =>
    intro k acc
    have hcons : List.enumFrom k (y :: t) = (k, y) :: List.enumFrom (k + 1) t := rfl
    rw [hcons, List.foldl_cons, ih (k + 1) (fitStep acc (k, y))]
    by_cases hy : y = 0
    · subst hy
      obtain ⟨axy, asx, asy, ax2, ay2, an⟩ := acc
      have hstep : fitStep ⟨axy, asx, asy, ax2, ay2, an⟩ (k, (0 : ℚ)) =
          ⟨axy, asx, asy, ax2, ay2, an - 1⟩ := by
        simp [fitStep]
      have hfil : ((k, (0 : ℚ)) :: List.enumFrom (k + 1) t).filter (fun p => p.2 ≠ 0) =
          (List.enumFrom (k + 1) t).filter (fun p => p.2 ≠ 0) := by
        simp [List.filter_cons]
      have hfil2 : ((0 : ℚ) :: t).filter (fun y => y = 0) =
          0 :: t.filter (fun y => y = 0) := by
        simp [List.filter_cons]
      rw [hstep, hfil, hfil2]
      simp only [FitAcc.mk.injEq, List.length_cons]
      refine ⟨?_, ?_, ?_, ?_, ?_, ?_⟩ <;> first
        | trivial
        | (push_cast; ring)
    · obtain ⟨axy, asx, asy, ax2, ay2, an⟩ := acc
      have hstep : fitStep ⟨axy, asx, asy, ax2, ay2, an⟩ (k, y) =
          ⟨axy + (k : ℚ) * y, asx + (k : ℚ), asy + y, ax2 + (k : ℚ) * (k : ℚ),
            ay2 + y * y, an⟩ := by
        simp [fitStep, hy]
      have hfil : ((k, y) :: List.enumFrom (k + 1) t).filter (fun p => p.2 ≠ 0) =
          (k, y) :: (List.enumFrom (k + 1) t).filter (fun p => p.2 ≠ 0) := by
        simp [List.filter_cons, hy]
      have hfil2 : (y :: t).filter (fun y => y = 0) = t.filter (fun y => y = 0) := by
        simp [List.filter_cons, hy]
      rw [hstep, hfil, hfil2]
      simp only [FitAcc.mk.injEq, List.map_cons, List.sum_cons]
      refine ⟨?_, ?_, ?_, ?_, ?_, ?_⟩ <;> first
        | trivial
        | (push_cast; ring)

/-- chunksOf with a positive chunk size is a partition: concatenating the
chunks recovers the sequence. -/
theorem chunksOf_flatten (c : ℕ) (hc : 0 < c) (xs : List ℚ) :
    (chunksOf c xs).flatten = xs := by
  induction xs using chunksOf.induct c with
  | case1 x hzero => omega
  | case2 hzero => rw [chunksOf]; simp
  | case3 x hzero hne hlen =>
    rw [chunksOf, dif_neg hzero, dif_neg hne, if_pos hlen]
    simp
  | case4 x hzero hne hlen ih =>
    rw [chunksOf, dif_neg hzero, dif_neg hne, if_neg hlen]
    simp only [List.flatten_cons, ih]
    exact List.take_append_drop c x

/-- For a chunk size of at least 8 and a remainder below 8 the chunk pass is
exactly: cut the sequence into chunksOf-chunks, zero out each chunk whose
average absolute deviation is too high, and concatenate. -/
theorem chunkPass_eq_chunksOf (cmd : ℚ) (c : ℕ) (hc : 8 ≤ c) :
    ∀ (N : ℕ) (xs : List ℚ), xs.length ≤ N → xs.length % c < 8 →
    chunkPass cmd c xs = some ((chunksOf c xs).map (zeroChunk cmd)).flatten := by
  have hc0 : c ≠ 0 := by omega
  have hemptyP : chunkPass cmd c ([] : List ℚ) = some [] := by
    rw [chunkPass, chunkPassF, if_pos rfl]
  intro N
  induction N with
  | zero =>
    intro xs hsN _
    have hnil : xs = [] := List.eq_nil_of_length_eq_zero (Nat.le_zero.mp hsN)
    subst hnil
    rw [hemptyP, chunksOf]
    simp [hc0]
  | succ N ih =>
    intro xs hsN hmod
    rcases eq_or_ne xs [] with rfl | hs
    · rw [hemptyP, chunksOf]
      simp [hc0]
    · have hpos : 0 < xs.length := List.length_pos.mpr hs
      by_cases h8 : xs.length < 8
      · -- the whole remaining tail is one (absorbed) chunk
        have hlt : xs.length < c := lt_of_lt_of_le h8 hc
        have hmin : min c xs.length = xs.length := min_eq_right hlt.le
        have hs'eq : (if cmd < AvgAbsDev xs then
            List.replicate (min c xs.length) 0 ++ xs.drop (min c xs.length) else xs)
              = zeroChunk cmd xs := by
          rw [hmin, List.drop_length, zeroChunk]
          split
          · exact List.append_nil _
          · rfl
        have hzlen : (zeroChunk cmd xs).length = xs.length := by
          rw [zeroChunk]
          split
          · simp
          · rfl
        have hdropnil : (zeroChunk cmd xs).drop c = [] :=
          List.drop_eq_nil_of_le (by omega)
        have htake : (zeroChunk cmd xs).take c = zeroChunk cmd xs :=
          List.take_of_length_le (by omega)
        have hrecF : chunkPassF cmd c xs.length ([] : List ℚ) = some [] := by
          rw [chunkPassF_eq_chunkPass cmd c xs.length [] (by simpa using hpos), hemptyP]
        rw [chunkPass, chunkPassF, if_neg hs, if_neg hc0, if_pos h8]
        dsimp only
        rw [hs'eq, hdropnil, hrecF, htake]
        rw [chunksOf, dif_neg hc0, dif_neg hs, if_pos hlt.le]
        simp
      · -- a full chunk of c elements is taken
        have hge : c ≤ xs.length := by
          by_contra hlt
          push_neg at hlt
          rw [Nat.mod_eq_of_lt hlt] at hmod
          omega
        have hmod' : (xs.drop c).length % c < 8 := by
          simp only [List.length_drop]
          have heq : xs.length - c + c = xs.length := by omega
          have := Nat.add_mod_right (xs.length - c) c
          rw [heq] at this
          omega
        have hlen' : (xs.drop c).length ≤ N := by
          simp only [List.length_drop]
          have : 0 < xs.length := List.length_pos.mpr hs
          omega
        have hrec := ih (xs.drop c) hlen' hmod'
        have htakelen : (xs.take c).length = c := by
          simp only [List.length_take]
          omega
        have hchunk : (if cmd < AvgAbsDev (xs.take c) then List.replicate c 0 else xs.take c)
            = zeroChunk cmd (xs.take c) := by
          rw [zeroChunk, htakelen]
        rw [chunkPass, chunkPassF, if_neg hs, if_neg hc0, if_neg h8, if_neg (not_lt.mpr hge)]
        dsimp only
        rw [hchunk]
        rw [chunkPassF_eq_chunkPass cmd c xs.length (xs.drop c)
          (by simp only [List.length_drop]; omega)]
        by_cases hlec : xs.length ≤ c
        · have hdnil : xs.drop c = [] := List.drop_eq_nil_of_le hlec
          have htall : xs.take c = xs := List.take_of_length_le hlec
          have hemp : chunksOf c ([] : List ℚ) = [] := by
            rw [chunksOf]
            simp [hc0]
          rw [hdnil] at hrec
          rw [hemp] at hrec
          rw [hdnil, hrec]
          conv_rhs => rw [chunksOf]
          rw [dif_neg hc0, dif_neg hs, if_pos hlec]
          simp [htall]
        · rw [hrec]
          conv_rhs => rw [chunksOf]
          rw [dif_neg hc0, dif_neg hs, if_neg hlec]
          simp

/-- Differentiate only returns lists of the input's length. -/
theorem Differentiate_length (pi : ℚ) (xs ys : List ℚ)
    (h : Differentiate pi xs = some ys) : ys.length = xs.length := by
  match xs with
  | [] =>
    simp only [Differentiate, Option.some.injEq] at h
    subst h
    rfl
  | [x] => simp [Differentiate] at h
  | a :: b :: t =>
    have hl := Lowpass_length pi (1 / 10) _ ys (by simpa [Differentiate] using h)
    simpa using hl

/-- The smoothing loop fixes constant sequences. -/
theorem lowpassGo_const (α v : ℚ) : ∀ (m : ℕ),
    lowpassGo α v (List.replicate m v) = List.replicate m v := by
  intro m
  induction m with
  | zero => rfl
  | succ k ih =>
    rw [List.replicate_succ, lowpassGo]
    have hv : v + α * (v - v) = v := by ring
    rw [hv, ih]

/-! The claims. -/

/-- C1, counterexample: the spec's claimed sign pattern — top and left share
one direction sign, bottom and right the opposite — is false for the dir
arguments Analyze actually passes: top pairs with right (−1) and bottom with
left (+1). -/
theorem c1_direction_counterexample :
    sideDir Side.top ≠ sideDir Side.left ∧ sideDir Side.bottom ≠ sideDir Side.right := by
  constructor
  · intro h
    simp only [sideDir] at h
    exact absurd h (by norm_num)
  · intro h
    simp only [sideDir] at h
    exact absurd h (by norm_num)

/-- C1, amended: every per-side angle analyzeResult returns equals
atan(slope · direction · n / d) where slope is the linear-fit slope of the
low-passed and cleaned edge sequence, and the direction factor is −1 for the
top and right sides and +1 for the bottom and left sides (it flips sign for
top/right versus bottom/left, not top/left versus bottom/right). -/
theorem c1_side_angle_amended :
    (∀ (atanF sqrtF : ℚ → ℚ) (pi : ℚ) (edges : List ℚ) (n dx dy : ℕ)
      (side : Side) (angle conf : ℚ) (crop : ℤ),
      analyzeResult atanF sqrtF pi edges (sideDir side) n (sideDim dx dy side)
        = some (angle, conf, crop) →
      ∃ e2, (Lowpass pi (1 / 10) edges).bind (Clean sqrtF 200 24 4 8) = some e2 ∧
        angle = atanF ((LinearFit sqrtF e2).2.1 * sideDir side * (n : ℚ)
          / ((sideDim dx dy side : ℕ) : ℚ))) ∧
    sideDir Side.top = -1 ∧ sideDir Side.right = -1 ∧
    sideDir Side.bottom = 1 ∧ sideDir Side.left = 1 := by
  constructor
  · intro atanF sqrtF pi edges n dx dy side angle conf crop h
    rw [analyzeResult, analyzeResultWith] at h
    cases hlp : Lowpass pi (1 / 10) edges with
    | none =>
      rw [hlp] at h
      simp at h
    | some e1 =>
      rw [hlp] at h
      dsimp only at h
      cases hcl : Clean sqrtF 200 24 4 8 e1 with
      | none =>
        rw [hcl] at h
        simp at h
      | some e2 =>
        rw [hcl] at h
        dsimp only at h
        split_ifs at h with hif
        simp only [Option.some.injEq, Prod.mk.injEq] at h
        refine ⟨e2, ?_, h.1.symm⟩
        simpa using hcl
  · exact ⟨rfl, rfl, rfl, rfl⟩

/-- C2, counterexample: the low-pass filter does not return a value on the
empty sequence (y[0] = x[0] indexes out of bounds). -/
theorem c2_lowpass_empty_counterexample : Lowpass 3 1 ([] : List ℚ) = none := rfl

/-- C2, amended: the low-pass filter returns a value on every nonempty input,
the differentiator on every input whose length is not 1, the outlier cleaner
whenever the remainder of the length modulo the positive chunk size is below
8, and the linear-regression fitter on every input. -/
theorem c2_totality_amended :
    (∀ (pi fc : ℚ) (xs : List ℚ), xs ≠ [] → ∃ ys, Lowpass pi fc xs = some ys) ∧
    (∀ (pi : ℚ) (xs : List ℚ), xs.length ≠ 1 → ∃ ys, Differentiate pi xs = some ys) ∧
    (∀ (sqrtF : ℚ → ℚ) (cutoff rd cmd : ℚ) (c : ℕ) (xs : List ℚ), 0 < c →
      xs.length % c < 8 → ∃ ys, Clean sqrtF cutoff rd cmd c xs = some ys) ∧
    (∀ (sqrtF : ℚ → ℚ) (xs : List ℚ), ∃ v, LinearFit sqrtF xs = v) := by
  refine ⟨?_, ?_, ?_, fun sqrtF xs => ⟨_, rfl⟩⟩
  · intro pi fc xs h
    obtain ⟨ys, hy, _⟩ := Lowpass_some pi fc xs h
    exact ⟨ys, hy⟩
  · intro pi xs h
    match xs with
    | [] => exact ⟨[], rfl⟩
    | [x] => simp at h
    | a :: b :: t =>
      obtain ⟨ys, hy, _⟩ := Differentiate_some pi (a :: b :: t) (by simp)
      exact ⟨ys, hy⟩
  · intro sqrtF cutoff rd cmd c xs hc hm
    obtain ⟨ys, hy, _⟩ := Clean_some sqrtF cutoff rd cmd c xs hc hm
    exact ⟨ys, hy⟩

/-- C3, counterexample: with chunkSize 9 on a sequence of 8 elements the
remainder (8) is at least 8 but smaller than chunkSize, and the chunk access
xs[0:9] is out of bounds — Clean does not return. -/
theorem c3_chunk_counterexample :
    Clean (fun x => x) 200 24 4 9 [1, 2, 3, 4, 5, 6, 7, 8] = none := by
  have hcp : chunkPass 4 9 [1, 2, 3, 4, 5, 6, 7, 8] = none := by
    rw [chunkPass, chunkPassF]
    simp
  rw [Clean, hcp]

/-- C3, amended: every chunk access of the chunked deviation pass stays in
bounds iff it is not the case that the length's remainder modulo the chunk
size reaches 8; under that bound Clean returns a sequence of the same length,
and for chunk sizes of at least 8 the pass processes exactly the partition of
the sequence into contiguous chunkSize-element chunks with a final shorter
remainder chunk, zeroing each high-deviation chunk. -/
theorem c3_chunking_amended :
    (∀ (sqrtF : ℚ → ℚ) (cutoff rd cmd : ℚ) (c : ℕ) (xs : List ℚ), 0 < c →
      xs.length % c < 8 →
      ∃ ys, Clean sqrtF cutoff rd cmd c xs = some ys ∧ ys.length = xs.length) ∧
    (∀ (c : ℕ) (xs : List ℚ), 0 < c → (chunksOf c xs).flatten = xs) ∧
    (∀ (cmd : ℚ) (c : ℕ) (xs : List ℚ), 8 ≤ c → xs.length % c < 8 →
      chunkPass cmd c xs = some ((chunksOf c xs).map (zeroChunk cmd)).flatten) := by
  refine ⟨?_, ?_, ?_⟩
  · intro sqrtF cutoff rd cmd c xs hc hm
    exact Clean_some sqrtF cutoff rd cmd c xs hc hm
  · intro c xs hc
    exact chunksOf_flatten c hc xs
  · intro cmd c xs hc hm
    exact chunkPass_eq_chunksOf cmd c hc xs.length xs le_rfl hm

/-- C4, counterexample: the claim quantifies over every raw intensity
sequence, but on a singleton window the edge detector returns nothing at
all — after the low-pass, the differentiator's access xs[1] is out of
bounds — so in particular it does not return 0 there even though no
derivative value ever exceeds the threshold. -/
theorem c4_search_singleton_counterexample : search 3 1 5 [7] = none := rfl

/-- C4, amended: on every sample window of length at least 2 (empty windows
abort in the low-pass filter and singleton windows in the differentiator
instead of returning a value) the edge detector low-passes at fc,
differentiates, and returns the index of the running maximum of the first
maximal run of derivative values strictly above the threshold, and 0 when no
derivative value exceeds the threshold (both cases are folded into
searchSpecPeak). -/
theorem c4_search_first_excursion_peak (pi fc thresh : ℚ) (samples : List ℚ)
    (h : 2 ≤ samples.length) :
    ∃ d, (Lowpass pi fc samples).bind (Differentiate pi) = some d ∧
      search pi fc thresh samples = some (searchSpecPeak thresh d) := by
  have hne : samples ≠ [] := by
    intro he
    rw [he] at h
    simp at h
  obtain ⟨ys, hys, hyl⟩ := Lowpass_some pi fc samples hne
  obtain ⟨d, hd, hdl⟩ := Differentiate_some pi ys (by omega)
  refine ⟨d, ?_, ?_⟩
  · rw [hys]
    simpa using hd
  · rw [search, hys]
    dsimp only
    rw [hd]
    dsimp only
    rw [searchVal_eq_spec]

/-- C5: the per-side angle, confidence and crop are independent of the Trim
result and of the coarse threshold q — any two in-bounds trim windows and any
two q values produce identical outputs. -/
theorem c5_trim_noninterference (atanF sqrtF : ℚ → ℚ) (pi : ℚ) (edges : List ℚ)
    (dir : ℚ) (n d : ℕ) (lohi1 lohi2 : ℕ × ℕ) (q1 q2 : ℚ)
    (h1a : lohi1.1 ≤ lohi1.2) (h1b : lohi1.2 ≤ edges.length)
    (h2a : lohi2.1 ≤ lohi2.2) (h2b : lohi2.2 ≤ edges.length) :
    analyzeResultWith atanF sqrtF pi lohi1 q1 edges dir n d =
      analyzeResultWith atanF sqrtF pi lohi2 q2 edges dir n d := by
  rcases eq_or_ne edges [] with rfl | hne
  · rfl
  · obtain ⟨e1, he1, hl1⟩ := Lowpass_some pi (1 / 10) edges hne
    have hq : Clean sqrtF q2 24 4 8 e1 = Clean sqrtF q1 24 4 8 e1 := rfl
    rw [analyzeResultWith, analyzeResultWith, he1]
    dsimp only
    rw [hq]
    obtain ⟨e2, he2, hl2⟩ := Clean_some sqrtF q1 24 4 8 e1 (by norm_num)
      (Nat.mod_lt _ (by norm_num))
    rw [he2]
    dsimp only
    rw [if_pos ⟨h1a, by omega⟩, if_pos ⟨h2a, by omega⟩]

/-- C6: LinearFit computes exactly the ordinary-least-squares formulas of the
spec over the nonzero (index, value) pairs — slope, intercept and squared
correlation built from the five moments, each a sum over nonzero entries
divided by the effective count n = length − #zeros. -/
theorem c6_linearfit_formula (sqrtF : ℚ → ℚ) (xs : List ℚ) :
    LinearFit sqrtF xs =
      (momY xs - ((momXY xs - momX xs * momY xs) / (momX2 xs - momX xs * momX xs)) * momX xs,
       (momXY xs - momX xs * momY xs) / (momX2 xs - momX xs * momX xs),
       ((momXY xs - momX xs * momY xs) /
          sqrtF ((momX2 xs - momX xs * momX xs) * (momY2 xs - momY xs * momY xs))) *
        ((momXY xs - momX xs * momY xs) /
          sqrtF ((momX2 xs - momX xs * momX xs) * (momY2 xs - momY xs * momY xs)))) := by
  rw [LinearFit]
  have henum : xs.enum = List.enumFrom 0 xs := rfl
  rw [henum, fit_foldl]
  simp only [momXY, momX, momY, momX2, momY2, fitN, fitPairs, henum, zero_add]

/-- C7: whenever the edge detector returns an edge position on a nonempty
sample window, that position is at least 0 and strictly below the window
length. -/
theorem c7_edge_in_window (pi fc thresh : ℚ) (samples : List ℚ) (e : ℚ)
    (hne : samples ≠ []) (h : search pi fc thresh samples = some e) :
    0 ≤ e ∧ e < (samples.length : ℚ) := by
  rw [search] at h
  cases hlp : Lowpass pi fc samples with
  | none =>
    rw [hlp] at h
    simp at h
  | some ys =>
    rw [hlp] at h
    dsimp only at h
    cases hd : Differentiate pi ys with
    | none =>
      rw [hd] at h
      simp at h
    | some d =>
      rw [hd] at h
      simp only [Option.some.injEq] at h
      subst h
      have hdl : d.length = samples.length := by
        rw [Differentiate_length pi ys d hd, Lowpass_length pi fc samples ys hlp]
      refine ⟨by positivity, ?_⟩
      have hslen : 0 < samples.length := List.length_pos.mpr hne
      cases hfp : findPeakIdx thresh d 0 with
      | none =>
        simp only [hfp, Option.getD_none, Nat.cast_zero]
        exact_mod_cast hslen
      | some m =>
        have hm := findPeakIdx_lt thresh d 0 m hfp
        simp only [hfp, Option.getD_some]
        exact_mod_cast (by omega : m < samples.length)

/-- C8: the rendered command string is exactly
"-rotate {deg} -crop {w}x{h}+{left}+{top}" with deg = angle·180/π, w and h
the crop rectangle's width and height, and the origin corrected by the
truncated products dy·sin(−angle)/2 and dx·sin(−angle)/2. -/
theorem c8_transform_string (pi : ℚ) (sinF : ℚ → ℚ) (fmtF : ℚ → String)
    (t : Transform) :
    Transform.string pi sinF fmtF t =
      "-rotate " ++ fmtF (t.angle * 180 / pi) ++ " -crop "
        ++ toString (t.bounds.maxX - t.bounds.minX) ++ "x"
        ++ toString (t.bounds.maxY - t.bounds.minY) ++ "+"
        ++ toString (t.bounds.minX
            + truncQ (((t.bounds.maxY - t.bounds.minY : ℤ) : ℚ) * sinF (-t.angle) / 2)) ++ "+"
        ++ toString (t.bounds.minY
            + truncQ (((t.bounds.maxX - t.bounds.minX : ℤ) : ℚ) * sinF (-t.angle) / 2)) := by
  simp only [Transform.string, Rad2deg, Rect.dx, Rect.dy, mul_div_assoc]

/-- C9: the low-pass filter leaves every constant sequence of positive length
unchanged, for every positive cutoff frequency. -/
theorem c9_lowpass_constant (pi fc v : ℚ) (n : ℕ) (hfc : 0 < fc) (hn : 0 < n) :
    Lowpass pi fc (List.replicate n v) = some (List.replicate n v) := by
  obtain ⟨m, rfl⟩ : ∃ m, n = m + 1 := ⟨n - 1, by omega⟩
  rw [List.replicate_succ, Lowpass, lowpassGo_const]

/-- C10: the differentiator returns the empty sequence on the empty input and
a sequence of equal length on every input of length at least 2, but on a
singleton input the guard does not fire and the access xs[1] is out of
bounds, so no value is returned. -/
theorem c10_differentiate_totality :
    (∀ pi : ℚ, Differentiate pi [] = some []) ∧
    (∀ (pi x : ℚ), Differentiate pi [x] = none) ∧
    (∀ (pi : ℚ) (xs : List ℚ), 2 ≤ xs.length →
      ∃ ys, Differentiate pi xs = some ys ∧ ys.length = xs.length) := by
  exact ⟨fun pi => rfl, fun pi x => rfl, fun pi xs h => Differentiate_some pi xs h⟩

/-- C1 witness: the amended angle equation instantiated at the bottom side on
the constant edge sequence [1, 1] with n = 2 and image dimensions 5 × 7. -/
theorem c1_side_angle_witness :
    ∃ e2, (Lowpass 3 (1 / 10) [1, 1]).bind (Clean (fun x => x) 200 24 4 8) = some e2 ∧
      (0 : ℚ) = (LinearFit (fun x => x) e2).2.1 * sideDir Side.bottom * ((2 : ℕ) : ℚ)
        / ((sideDim 5 7 Side.bottom : ℕ) : ℚ) := by
  have hlp : Lowpass 3 (1 / 10) [1, 1] = some [1, 1] := by
    norm_num [Lowpass, lowpassGo]
  have hlf : LinearFit (fun x => x) [1, 1] = (1, 0, 0) := by
    have he : ([1, 1] : List ℚ).enum = [(0, 1), (1, 1)] := rfl
    norm_num [LinearFit, he, fitStep, List.foldl_cons, List.foldl_nil]
  have hcp : chunkPass 4 8 [1, 1] = some [1, 1] := by
    norm_num [chunkPass, chunkPassF, AvgAbsDev, Mean]
  have hclean : Clean (fun x => x) 200 24 4 8 [1, 1] = some [1, 1] := by
    rw [Clean, hcp]
    dsimp only
    norm_num [hlf, List.enum, List.enumFrom]
  have htr : Trim [1, 1] 200 = (0, 2) := by
    norm_num [Trim, findIdxQ]
  have hres : analyzeResult (fun x => x) (fun x => x) 3 [1, 1] (sideDir Side.bottom) 2
      (sideDim 5 7 Side.bottom) = some (0, 0, 1) := by
    rw [analyzeResult, htr, analyzeResultWith, hlp]
    dsimp only
    rw [hclean]
    dsimp only
    norm_num [hlf, sideDir, sideDim, truncQ, Int.floor_one]
  exact c1_side_angle_amended.1 (fun x => x) (fun x => x) 3 [1, 1] 2 5 7 Side.bottom 0 0 1 hres

/-- C2 witness: the amended totality statement at concrete inputs. -/
theorem c2_totality_witness :
    (∃ ys, Lowpass 3 1 [5] = some ys) ∧
    (∃ ys, Differentiate 3 ([] : List ℚ) = some ys) ∧
    (∃ ys, Clean (fun x => x) 200 24 4 8 [1, 2] = some ys) ∧
    (∃ v, LinearFit (fun x => x) [1, 2] = v) :=
  ⟨c2_totality_amended.1 3 1 [5] (by simp),
   c2_totality_amended.2.1 3 [] (by simp),
   c2_totality_amended.2.2.1 (fun x => x) 200 24 4 8 [1, 2] (by norm_num) (by norm_num),
   c2_totality_amended.2.2.2 (fun x => x) [1, 2]⟩

/-- C3 witness: the amended chunking statement at concrete inputs with
chunkSize 8. -/
theorem c3_chunking_witness :
    (∃ ys, Clean (fun x => x) 200 24 4 8 [1, 2] = some ys ∧
      ys.length = ([1, 2] : List ℚ).length) ∧
    ((chunksOf 8 [1, 2, 3]).flatten = [1, 2, 3]) ∧
    (chunkPass 4 8 [1, 2] = some ((chunksOf 8 [1, 2]).map (zeroChunk 4)).flatten) :=
  ⟨c3_chunking_amended.1 (fun x => x) 200 24 4 8 [1, 2] (by norm_num) (by norm_num),
   c3_chunking_amended.2.1 8 [1, 2, 3] (by norm_num),
   c3_chunking_amended.2.2 4 8 [1, 2] (by norm_num) (by norm_num)⟩

/-- C4 witness: the search characterization on the window [1, 1]. -/
theorem c4_search_witness :
    ∃ d, (Lowpass 3 1 [1, 1]).bind (Differentiate 3) = some d ∧
      search 3 1 5 [1, 1] = some (searchSpecPeak 5 d) :=
  c4_search_first_excursion_peak 3 1 5 [1, 1] (by simp)

/-- C5 witness: two different trim windows and q values on the same edge
sequence produce the same analyzeResult output. -/
theorem c5_trim_witness :
    analyzeResultWith (fun x => x) (fun x => x) 3 (0, 2) 200 [1, 1] 1 2 5 =
      analyzeResultWith (fun x => x) (fun x => x) 3 (1, 1) 0 [1, 1] 1 2 5 :=
  c5_trim_noninterference (fun x => x) (fun x => x) 3 [1, 1] 1 2 5 (0, 2) (1, 1) 200 0
    (by norm_num) (by simp) (by norm_num) (by simp)

/-- C7 witness: the edge position the detector returns on the window [1, 1]
lies within that window. -/
theorem c7_edge_witness : (0 : ℚ) ≤ 0 ∧ (0 : ℚ) < ((([1, 1] : List ℚ).length : ℕ) : ℚ) := by
  have hlp : Lowpass 3 1 [1, 1] = some [1, 1] := by
    norm_num [Lowpass, lowpassGo]
  have hr : List.range 2 = [0, 1] := rfl
  have hdf : Differentiate 3 [1, 1] = some [0, 0] := by
    norm_num [Differentiate, hr, Lowpass, lowpassGo]
  have hsp : search 3 1 5 [1, 1] = some 0 := by
    rw [search, hlp]
    dsimp only
    rw [hdf]
    dsimp only
    norm_num [findPeakIdx, peakLoop]
  exact c7_edge_in_window 3 1 5 [1, 1] 0 (by simp) hsp

/-- C9 witness: the filter fixes the constant sequence [5, 5] at cutoff 1. -/
theorem c9_lowpass_witness :
    Lowpass 3 1 (List.replicate 2 5) = some (List.replicate 2 5) :=
  c9_lowpass_constant 3 1 5 2 (by norm_num) (by norm_num)

/-- C10 witness: the differentiator's three cases at concrete inputs. -/
theorem c10_differentiate_witness :
    (Differentiate 3 [] = some []) ∧ (Differentiate 3 [7] = none) ∧
    (∃ ys, Differentiate 3 [1, 2] = some ys ∧ ys.length = ([1, 2] : List ℚ).length) :=
  ⟨c10_differentiate_totality.1 3, c10_differentiate_totality.2.1 3 7,
   c10_differentiate_totality.2.2 3 [1, 2] (by simp)⟩

end Autocrop
